import Mathlib

/-!
Verification development for the `bumpalo` bump-allocation arena
(`src/lib.rs`). The source is shallowly embedded: machine addresses and
sizes are natural numbers reduced modulo `2 ^ 64` exactly where the Rust
code performs release-mode (wrapping) `usize` arithmetic, chunk footers are
identified by their allocation index, and the fatal conditions (checked
arithmetic overflow, a null return from the global allocator) are modeled
by `Option` results. Addresses handed back by the system memory provider
(`alloc`) are passed in explicitly as parameters, so theorems quantify over
every possible provider behavior.
-/

namespace Bumpalo

/-- Number of values of the 64-bit machine word `usize`. The embedding
targets the 64-bit platform on which the crate's own
`chunk_footer_is_three_words` test pins the footer size. -/
def usizeBound : Nat := 2 ^ 64

/-- Release-mode (wrapping) reduction of a `usize` computation. -/
def wrap (n : Nat) : Nat := n % usizeBound

/-- Release-mode wrapping `usize` subtraction `a - b`. -/
def wsub (a b : Nat) : Nat := (a + (usizeBound - b % usizeBound)) % usizeBound

/-- `usize::checked_add`. -/
def checked_add (a b : Nat) : Option Nat :=
  if a + b < usizeBound then some (a + b) else none

/-- `usize::checked_mul`. -/
def checked_mul (a b : Nat) : Option Nat :=
  if a * b < usizeBound then some (a * b) else none

/-- Source `round_up_to(n, divisor)`, i.e. `(n + divisor - 1) & !(divisor - 1)`.
The addition is plain release-mode `usize` arithmetic, so it wraps; for the
power-of-two divisors the source passes, the mask `!(divisor - 1)` is the
64-bit value `2 ^ 64 - divisor`. -/
def round_up_to (n divisor : Nat) : Nat :=
  wrap (n + divisor - 1) &&& (usizeBound - divisor)

/-- `mem::size_of::<ChunkFooter>()` on the 64-bit target: five words, as
asserted by the crate's `chunk_footer_is_three_words` test. -/
def FOOTER_SIZE : Nat := 40

/-- `mem::align_of::<ChunkFooter>()` on the 64-bit target: one word. -/
def FOOTER_ALIGN : Nat := 8

/-- Source constant `MALLOC_OVERHEAD`. -/
def MALLOC_OVERHEAD : Nat := 16

/-- Source constant `DEFAULT_CHUNK_SIZE_WITH_FOOTER = (1 << 9) - MALLOC_OVERHEAD`. -/
def DEFAULT_CHUNK_SIZE_WITH_FOOTER : Nat := 2 ^ 9 - MALLOC_OVERHEAD

/-- Source constant `DEFAULT_CHUNK_ALIGN = mem::align_of::<ChunkFooter>()`. -/
def DEFAULT_CHUNK_ALIGN : Nat := FOOTER_ALIGN

/-- `std::alloc::Layout`: a `(size, align)` pair describing an allocation
request. -/
structure Layout where
  size : Nat
  align : Nat
deriving DecidableEq, Repr

/-- `Bump::default_chunk_layout()`. -/
def default_chunk_layout : Layout :=
  ⟨DEFAULT_CHUNK_SIZE_WITH_FOOTER, DEFAULT_CHUNK_ALIGN⟩

/-- `ChunkFooter`: the bookkeeping record written at the high end of each
chunk's backing region. `next` holds the allocation index (id) of the next
chunk footer, modeling the `Option<NonNull<ChunkFooter>>` link. -/
structure ChunkFooter where
  data : Nat
  layout : Layout
  next : Option Nat
  ptr : Nat
deriving DecidableEq, Repr

/-- Address at which the footer itself was written by `new_chunk`:
`data + layout.size - FOOTER_SIZE` in release-mode `usize` arithmetic.
This is the `end` bound checked by the allocation fast path. -/
def ChunkFooter.footerAddr (f : ChunkFooter) : Nat :=
  wsub (wrap (f.data + f.layout.size)) FOOTER_SIZE

/-- One `dealloc(addr, layout)` call issued to the system memory provider. -/
structure DeallocEvent where
  addr : Nat
  layout : Layout
deriving DecidableEq, Repr

/-- The arena `Bump`. Chunk footers are identified by their allocation
index into `chunks`; `current_chunk_footer` and `all_chunk_footers` are the
two `Cell<NonNull<ChunkFooter>>` fields, and `freed` is the log of
`dealloc` calls issued to the system memory provider so far. Footers of
released chunks stay in `chunks` as inert records; attachment is defined by
reachability through `next` links from `all_chunk_footers`. -/
structure Bump where
  chunks : List ChunkFooter
  current_chunk_footer : Nat
  all_chunk_footers : Nat
  freed : List DeallocEvent
deriving DecidableEq, Repr

/-- `Bump::new_chunk`. `a` is the address returned by the system memory
provider for the derived layout; the result is the initialized footer for
a chunk whose backing region starts at `a`. `none` models the fatal
conditions: overflow of `old.size().checked_mul(2).unwrap()` and the
`assert!` that the provider did not return null. -/
def new_chunk (layouts : Option (Layout × Layout)) (a : Nat) : Option ChunkFooter :=
  match layouts with
  | none =>
    if a = 0 then none
    else some ⟨a, default_chunk_layout, none, a⟩
  | some (old, requested) =>
    match checked_mul old.size 2 with
    | none => none
    | some old_doubled =>
      let requested_size := round_up_to requested.size FOOTER_ALIGN
      let size := max old_doubled requested_size
      let align := max old.align requested.align
      if a = 0 then none
      else some ⟨a, ⟨size, align⟩, none, a⟩

/-- `Bump::new`: construct an arena with one default-sized chunk whose
backing region starts at provider address `a`. -/
def Bump.new (a : Nat) : Option Bump :=
  match new_chunk none a with
  | none => none
  | some f => some ⟨[f], 0, 0, []⟩

/-- `Bump::alloc_layout_slow`: allocate a new chunk from the provider
(at address `a`), splice it after the current chunk, make it current, move
its bump finger ahead by the requested size, and return its start. -/
def Bump.alloc_layout_slow (s : Bump) (layout : Layout) (a : Nat) :
    Option (Nat × Bump) :=
  match s.chunks[s.current_chunk_footer]? with
  | none => none
  | some cur =>
    match new_chunk (some (cur.layout, layout)) a with
    | none => none
    | some f =>
      let newId := s.chunks.length
      let chunks := s.chunks.set s.current_chunk_footer { cur with next := some newId }
      let f' := { f with ptr := wrap (f.ptr + layout.size) }
      some (f.data, ⟨chunks ++ [f'], newId, s.all_chunk_footers, s.freed⟩)

/-- `Bump::alloc_layout`: the fast path; rounds the current chunk's bump
finger up to the requested alignment, checks the overflow-checked end
address against the footer address, commits on success and otherwise falls
through to `alloc_layout_slow` with provider address `a`. `none` models the
`self.overflow()` panic and the slow path's fatal conditions. -/
def Bump.alloc_layout (s : Bump) (layout : Layout) (a : Nat) :
    Option (Nat × Bump) :=
  match s.chunks[s.current_chunk_footer]? with
  | none => none
  | some footer =>
    let p := round_up_to footer.ptr layout.align
    match checked_add p layout.size with
    | none => none
    | some new_ptr =>
      if new_ptr ≤ footer.footerAddr then
        some (p, { s with
          chunks := s.chunks.set s.current_chunk_footer { footer with ptr := new_ptr } })
      else
        s.alloc_layout_slow layout a

/-- Loop body of `Bump::reset`, walking the footer list from the cursor:
the current chunk has its finger rewound and its link cleared and becomes
the list head; every other visited chunk is returned to the provider with
its own recorded layout. `fuel` bounds the traversal. -/
def resetLoop : Nat → Bump → Option Nat → Bump
  | 0, s, _ => s
  | _ + 1, s, none => s
  | fuel + 1, s, some i =>
    match s.chunks[i]? with
    | none => s
    | some f =>
      if i = s.current_chunk_footer then
        resetLoop fuel
          { s with
            chunks := s.chunks.set i { f with ptr := f.data, next := none },
            all_chunk_footers := i }
          f.next
      else
        resetLoop fuel { s with freed := s.freed ++ [⟨f.data, f.layout⟩] } f.next

/-- `Bump::reset`. -/
def Bump.reset (s : Bump) : Bump :=
  resetLoop s.chunks.length s (some s.all_chunk_footers)

/-- Loop body of `Bump::each_allocated_chunk`: yields the `(start, len)`
byte range of each visited chunk, where `len` is the release-mode
subtraction `bump_finger - data`. -/
def eachLoop : Nat → List ChunkFooter → Option Nat → List (Nat × Nat)
  | 0, _, _ => []
  | _ + 1, _, none => []
  | fuel + 1, chunks, some i =>
    match chunks[i]? with
    | none => []
    | some f => (f.data, wsub f.ptr f.data) :: eachLoop fuel chunks f.next

/-- `Bump::each_allocated_chunk`: the sequence of byte ranges passed to the
callback, oldest chunk first. -/
def Bump.each_allocated_chunk (s : Bump) : List (Nat × Nat) :=
  eachLoop s.chunks.length s.chunks (some s.all_chunk_footers)

/-- Loop body of `impl Drop for Bump`: the source deallocates every chunk
in the list with `Bump::default_chunk_layout()` rather than the chunk's
recorded layout. -/
def dropLoop : Nat → List ChunkFooter → Option Nat → List DeallocEvent
  | 0, _, _ => []
  | _ + 1, _, none => []
  | fuel + 1, chunks, some i =>
    match chunks[i]? with
    | none => []
    | some f => ⟨f.data, default_chunk_layout⟩ :: dropLoop fuel chunks f.next

/-- `impl Drop for Bump`: the sequence of `dealloc` calls made when the
arena is destroyed. -/
def Bump.dropDeallocs (s : Bump) : List DeallocEvent :=
  dropLoop s.chunks.length s.chunks (some s.all_chunk_footers)

/-- `<&Bump as Alloc>::alloc`: forwards to `alloc_layout`. -/
def Bump.trait_alloc (s : Bump) (layout : Layout) (a : Nat) : Option (Nat × Bump) :=
  s.alloc_layout layout a

/-- `<&Bump as Alloc>::dealloc`: the source body is empty; the arena state
is returned untouched and no `dealloc` call is logged. -/
def Bump.trait_dealloc (s : Bump) (_ptr : Nat) (_layout : Layout) : Bump :=
  s

/-- Data-and-layout release event of chunk `i`, as issued by `reset` for
non-current chunks. -/
def chunkEvent (chunks : List ChunkFooter) (i : Nat) : DeallocEvent :=
  match chunks[i]? with
  | some f => ⟨f.data, f.layout⟩
  | none => ⟨0, default_chunk_layout⟩

/-- Byte range `(start, len)` that chunk `i` contributes to
`each_allocated_chunk`. -/
def chunkRange (chunks : List ChunkFooter) (i : Nat) : Nat × Nat :=
  match chunks[i]? with
  | some f => (f.data, wsub f.ptr f.data)
  | none => (0, 0)

/-- Well-formed ascending footer chain: `Links chunks i L` says that
starting at footer id `i` and following `next` links visits exactly the
ids in `L`, each present in `chunks`, with strictly increasing (that is,
oldest-to-newest insertion order) ids, ending at a footer whose `next` is
`none`. -/
inductive Links (chunks : List ChunkFooter) : Nat → List Nat → Prop
  | last (i : Nat) (f : ChunkFooter) :
      chunks[i]? = some f → f.next = none → Links chunks i [i]
  | cons (i : Nat) (f : ChunkFooter) (j : Nat) (L : List Nat) :
      chunks[i]? = some f → f.next = some j → i < j →
      Links chunks j L → Links chunks i (i :: L)

/-- Structural invariant of the arena: the chunk list starting at
`all_chunk_footers` is a well-formed ascending chain whose terminal node is
`current_chunk_footer`. -/
def Inv (s : Bump) : Prop :=
  ∃ L, Links s.chunks s.all_chunk_footers L ∧
    L.getLast? = some s.current_chunk_footer

/-- Arena states reachable by constructing an arena and performing any
sequence of allocations (with arbitrary provider addresses) and resets. -/
inductive Reachable : Bump → Prop
  | new (a : Nat) (s : Bump) : Bump.new a = some s → Reachable s
  | alloc (s : Bump) (layout : Layout) (a p : Nat) (s' : Bump) :
      Reachable s → s.alloc_layout layout a = some (p, s') → Reachable s'
  | reset (s : Bump) : Reachable s → Reachable s.reset

/-- Chains are nonempty. -/
theorem Links.ne_nil {chunks : List ChunkFooter} {i : Nat} {L : List Nat}
    (h : Links chunks i L) : L ≠ [] := by
  cases h <;> simp

/-- Every id on a chain indexes an existing footer. -/
theorem Links.mem_lt_length {chunks : List ChunkFooter} {i : Nat} {L : List Nat}
    (h : Links chunks i L) : ∀ k ∈ L, k < chunks.length := by
  induction h with
  | last i f hf hn =>
    intro k hk
    rw [List.mem_singleton] at hk
    subst hk
    exact (List.getElem?_eq_some_iff.mp hf).1
  | cons i f j L hf hn hij hL ih =>
    intro k hk
    rcases List.mem_cons.mp hk with rfl | hk
    · exact (List.getElem?_eq_some_iff.mp hf).1
    · exact ih k hk

/-- The start of a chain is its least id. -/
theorem Links.start_le_mem {chunks : List ChunkFooter} {i : Nat} {L : List Nat}
    (h : Links chunks i L) : ∀ k ∈ L, i ≤ k := by
  induction h with
  | last i f hf hn =>
    intro k hk
    rw [List.mem_singleton] at hk
    omega
  | cons i f j L hf hn hij hL ih =>
    intro k hk
    rcases List.mem_cons.mp hk with rfl | hk
    · exact Nat.le_refl _
    · exact Nat.le_of_lt (Nat.lt_of_lt_of_le hij (ih k hk))

/-- Chain ids are strictly increasing: oldest (smallest id) to newest. -/
theorem Links.pairwise_lt {chunks : List ChunkFooter} {i : Nat} {L : List Nat}
    (h : Links chunks i L) : L.Pairwise (· < ·) := by
  induction h with
  | last i f hf hn => simp
  | cons i f j L hf hn hij hL ih =>
    rw [List.pairwise_cons]
    exact ⟨fun k hk => Nat.lt_of_lt_of_le hij (hL.start_le_mem k hk), ih⟩

/-- A chain has at most as many nodes as there are footers. -/
theorem Links.length_add_start_le {chunks : List ChunkFooter} {i : Nat} {L : List Nat}
    (h : Links chunks i L) : L.length + i ≤ chunks.length := by
  induction h with
  | last i f hf hn =>
    have := (List.getElem?_eq_some_iff.mp hf).1
    simp only [List.length_singleton]
    omega
  | cons i f j L hf hn hij hL ih =>
    simp only [List.length_cons]
    omega

/-- The terminal node of a chain has no successor link. -/
theorem Links.getLast_terminal {chunks : List ChunkFooter} {i : Nat} {L : List Nat}
    {c : Nat} (h : Links chunks i L) (hc : L.getLast? = some c) :
    ∃ f, chunks[c]? = some f ∧ f.next = none := by
  induction h with
  | last i f hf hn =>
    simp only [List.getLast?_singleton, Option.some.injEq] at hc
    subst hc
    exact ⟨f, hf, hn⟩
  | cons i f j L hf hn hij hL ih =>
    have hne : L ≠ [] := hL.ne_nil
    rw [List.getLast?_cons] at hc
    cases hL' : L.getLast? with
    | none => exact absurd (List.getLast?_isSome.mpr hne) (by simp [hL'])
    | some c' =>
      rw [hL'] at hc
      simp only [Option.getD_some, Option.some.injEq] at hc
      subst hc
      exact ih hL'

/-- Replacing a footer of given index by one with the same successor link
leaves every chain intact. -/
theorem Links.set_preserve {chunks : List ChunkFooter} {k : Nat} {g h : ChunkFooter}
    {i : Nat} {L : List Nat} (hk : chunks[k]? = some g) (hnext : h.next = g.next)
    (hl : Links chunks i L) : Links (chunks.set k h) i L := by
  induction hl with
  | last i f hf hn =>
    by_cases hik : k = i
    · subst hik
      have hgf : g = f := by rw [hk] at hf; exact Option.some.inj hf
      refine Links.last _ h ?_ ?_
      · exact List.getElem?_set_self (List.getElem?_eq_some_iff.mp hk).1
      · rw [hnext, hgf, hn]
    · exact Links.last i f (by rw [List.getElem?_set_ne hik]; exact hf) hn
  | cons i f j L hf hn hij hL ih =>
    by_cases hik : k = i
    · subst hik
      have hgf : g = f := by rw [hk] at hf; exact Option.some.inj hf
      refine Links.cons _ h j L ?_ ?_ hij ih
      · exact List.getElem?_set_self (List.getElem?_eq_some_iff.mp hk).1
      · rw [hnext, hgf, hn]
    · exact Links.cons i f j L (by rw [List.getElem?_set_ne hik]; exact hf) hn hij ih

/-- Appending fresh footers at the tail of the store leaves every chain
intact. -/
theorem Links.append_preserve {chunks ex : List ChunkFooter} {i : Nat} {L : List Nat}
    (hl : Links chunks i L) : Links (chunks ++ ex) i L := by
  induction hl with
  | last i f hf hn =>
    exact Links.last i f
      (by rw [List.getElem?_append_left (List.getElem?_eq_some_iff.mp hf).1]; exact hf) hn
  | cons i f j L hf hn hij hL ih =>
    exact Links.cons i f j L
      (by rw [List.getElem?_append_left (List.getElem?_eq_some_iff.mp hf).1]; exact hf)
      hn hij ih

/-- Splicing a fresh terminal chunk after the chain's terminal node, exactly
as `alloc_layout_slow` does, extends the chain by that node. -/
theorem Links.extend {chunks : List ChunkFooter} {i cur : Nat} {L : List Nat}
    {curf newf : ChunkFooter} (hl : Links chunks i L) (hlast : L.getLast? = some cur)
    (hcur : chunks[cur]? = some curf) (hnew : newf.next = none) :
    Links ((chunks.set cur { curf with next := some chunks.length }) ++ [newf]) i
      (L ++ [chunks.length]) := by
  induction hl with
  | last i f hf hn =>
    simp only [List.getLast?_singleton, Option.some.injEq] at hlast
    subst hlast
    have hif : f = curf := by rw [hf] at hcur; exact Option.some.inj hcur
    have hi : i < chunks.length := (List.getElem?_eq_some_iff.mp hf).1
    refine Links.cons i { curf with next := some chunks.length } chunks.length
      [chunks.length] ?_ rfl hi (Links.last chunks.length newf ?_ hnew)
    · rw [List.getElem?_append_left (by simpa using hi)]
      exact List.getElem?_set_self (by simpa using hi)
    · have hcat := List.getElem?_concat_length
        (chunks.set i { curf with next := some chunks.length }) newf
      rw [List.length_set] at hcat
      exact hcat
  | cons i f j L hf hn hij hL ih =>
    have hne : L ≠ [] := hL.ne_nil
    have hlast' : L.getLast? = some cur := by
      rw [List.getLast?_cons] at hlast
      cases hL' : L.getLast? with
      | none => exact absurd (List.getLast?_isSome.mpr hne) (by simp [hL'])
      | some c' => rw [hL'] at hlast; simpa using hlast
    have hicur : i ≠ cur := by
      have hcm : cur ∈ L := by
        obtain ⟨ys, hys⟩ := List.getLast?_eq_some_iff.mp hlast'
        rw [hys]
        exact List.mem_append_right ys (List.mem_singleton.mpr rfl)
      have := hL.start_le_mem cur hcm
      omega
    have hi : i < chunks.length := (List.getElem?_eq_some_iff.mp hf).1
    refine Links.cons i f j (L ++ [chunks.length]) ?_ hn hij (ih hlast')
    rw [List.getElem?_append_left (by simpa using hi), List.getElem?_set_ne (by omega)]
    exact hf

/-- A footer produced by `new_chunk` has no successor, starts its bump
finger at its data start, and records a non-null provider address. -/
theorem new_chunk_spec {layouts : Option (Layout × Layout)} {a : Nat} {f : ChunkFooter}
    (h : new_chunk layouts a = some f) :
    f.next = none ∧ f.data = a ∧ f.ptr = a ∧ a ≠ 0 := by
  unfold new_chunk at h
  cases layouts with
  | none =>
    dsimp only at h
    by_cases ha : a = 0
    · simp [ha] at h
    · simp [ha] at h
      subst h
      exact ⟨rfl, rfl, rfl, ha⟩
  | some pair =>
    obtain ⟨old, requested⟩ := pair
    dsimp only at h
    cases hmul : checked_mul old.size 2 with
    | none => rw [hmul] at h; simp at h
    | some d =>
      rw [hmul] at h
      dsimp only at h
      by_cases ha : a = 0
      · simp [ha] at h
      · simp [ha] at h
        subst h
        exact ⟨rfl, rfl, rfl, ha⟩

/-- Layout derivation of a growth chunk: the new size is the maximum of the
doubled old size and the request rounded up to the footer alignment; the
new alignment is the maximum of the two alignments; the doubling did not
overflow. -/
theorem new_chunk_growth_layout {old requested : Layout} {a : Nat} {f : ChunkFooter}
    (h : new_chunk (some (old, requested)) a = some f) :
    f.layout = ⟨max (old.size * 2) (round_up_to requested.size FOOTER_ALIGN),
      max old.align requested.align⟩ ∧ old.size * 2 < usizeBound := by
  unfold new_chunk checked_mul at h
  dsimp only at h
  by_cases hmul : old.size * 2 < usizeBound
  · rw [if_pos hmul] at h
    dsimp only at h
    by_cases ha : a = 0
    · simp [ha] at h
    · simp [ha] at h
      subst h
      exact ⟨rfl, hmul⟩
  · rw [if_neg hmul] at h
    simp at h

/-- Overflow of the doubled chunk size is fatal: `new_chunk` signals it for
every provider address. -/
theorem new_chunk_growth_overflow {old requested : Layout} {a : Nat}
    (h : usizeBound ≤ old.size * 2) :
    new_chunk (some (old, requested)) a = none := by
  unfold new_chunk checked_mul
  dsimp only
  rw [if_neg (by omega : ¬old.size * 2 < usizeBound)]

/-- Characterization of a successful `alloc_layout_slow` call. -/
theorem alloc_layout_slow_spec {s : Bump} {layout : Layout} {a p : Nat} {s' : Bump}
    {cur : ChunkFooter} (hcur : s.chunks[s.current_chunk_footer]? = some cur)
    (h : s.alloc_layout_slow layout a = some (p, s')) :
    ∃ f, new_chunk (some (cur.layout, layout)) a = some f ∧
      p = f.data ∧
      s' = ⟨(s.chunks.set s.current_chunk_footer
          { cur with next := some s.chunks.length })
        ++ [{ f with ptr := wrap (f.ptr + layout.size) }],
        s.chunks.length, s.all_chunk_footers, s.freed⟩ := by
  unfold Bump.alloc_layout_slow at h
  rw [hcur] at h
  dsimp only at h
  cases hnc : new_chunk (some (cur.layout, layout)) a with
  | none => rw [hnc] at h; simp at h
  | some f =>
    rw [hnc] at h
    simp only [Option.some.injEq, Prod.mk.injEq] at h
    exact ⟨f, rfl, h.1.symm, h.2.symm⟩

/-- Case analysis of a successful `alloc_layout` call: either the fast path
committed (the rounded finger plus size fit below the footer), or the fast
path found insufficient room and the slow path produced the result. -/
theorem alloc_layout_cases {s : Bump} {layout : Layout} {a p : Nat} {s' : Bump}
    {cur : ChunkFooter} (hcur : s.chunks[s.current_chunk_footer]? = some cur)
    (h : s.alloc_layout layout a = some (p, s')) :
    (round_up_to cur.ptr layout.align + layout.size < usizeBound ∧
      round_up_to cur.ptr layout.align + layout.size ≤ cur.footerAddr ∧
      p = round_up_to cur.ptr layout.align ∧
      s' = ⟨s.chunks.set s.current_chunk_footer
          ({ cur with ptr := round_up_to cur.ptr layout.align + layout.size }),
        s.current_chunk_footer, s.all_chunk_footers, s.freed⟩) ∨
    (cur.footerAddr < round_up_to cur.ptr layout.align + layout.size ∧
      round_up_to cur.ptr layout.align + layout.size < usizeBound ∧
      s.alloc_layout_slow layout a = some (p, s')) := by
  unfold Bump.alloc_layout at h
  rw [hcur] at h
  dsimp only at h
  by_cases hov : round_up_to cur.ptr layout.align + layout.size < usizeBound
  · have hadd : checked_add (round_up_to cur.ptr layout.align) layout.size =
        some (round_up_to cur.ptr layout.align + layout.size) := by
      unfold checked_add
      rw [if_pos hov]
    rw [hadd] at h
    dsimp only at h
    by_cases hle : round_up_to cur.ptr layout.align + layout.size ≤ cur.footerAddr
    · rw [if_pos hle] at h
      simp only [Option.some.injEq, Prod.mk.injEq] at h
      exact Or.inl ⟨hov, hle, h.1.symm, h.2.symm⟩
    · rw [if_neg hle] at h
      exact Or.inr ⟨by omega, hov, h⟩
  · have hadd : checked_add (round_up_to cur.ptr layout.align) layout.size = none := by
      unfold checked_add
      rw [if_neg hov]
    rw [hadd] at h
    dsimp only at h
    exact absurd h (by simp)

/-- A failing current-footer lookup makes `alloc_layout` signal failure, so
a successful call implies the current footer exists. -/
theorem alloc_layout_current_exists {s : Bump} {layout : Layout} {a p : Nat}
    {s' : Bump} (h : s.alloc_layout layout a = some (p, s')) :
    ∃ cur, s.chunks[s.current_chunk_footer]? = some cur := by
  cases hc : s.chunks[s.current_chunk_footer]? with
  | none => unfold Bump.alloc_layout at h; rw [hc] at h; simp at h
  | some cur => exact ⟨cur, rfl⟩

/-- A freshly constructed arena satisfies the list invariant. -/
theorem inv_new {a : Nat} {s : Bump} (h : Bump.new a = some s) : Inv s := by
  unfold Bump.new new_chunk at h
  by_cases ha : a = 0
  · simp [ha] at h
  · simp [ha] at h
    subst h
    exact ⟨[0], Links.last 0 _ rfl rfl, rfl⟩

/-- Allocation preserves the list invariant, on both paths. -/
theorem inv_alloc {s : Bump} {layout : Layout} {a p : Nat} {s' : Bump}
    (hs : Inv s) (h : s.alloc_layout layout a = some (p, s')) : Inv s' := by
  obtain ⟨L, hL, hlast⟩ := hs
  obtain ⟨cur, hcur⟩ := alloc_layout_current_exists h
  rcases alloc_layout_cases hcur h with ⟨hov, hle, hp, hs'⟩ | ⟨hgt, hov, hslow⟩
  · subst hs'
    exact ⟨L, Links.set_preserve hcur rfl hL, hlast⟩
  · obtain ⟨f, hnc, hp, hs'⟩ := alloc_layout_slow_spec hcur hslow
    subst hs'
    have hfn : f.next = none := (new_chunk_spec hnc).1
    exact ⟨L ++ [s.chunks.length], hL.extend hlast hcur hfn,
      by rw [List.getLast?_concat]⟩

/-- The loops terminate trivially when the cursor is exhausted. -/
theorem resetLoop_none (fuel : Nat) (s : Bump) : resetLoop fuel s none = s := by
  cases fuel <;> rfl

/-- Reset loop step at the current chunk. -/
theorem resetLoop_step_cur {fuel : Nat} {s : Bump} {i : Nat} {f : ChunkFooter}
    (hf : s.chunks[i]? = some f) (hi : i = s.current_chunk_footer) :
    resetLoop (fuel + 1) s (some i) =
      resetLoop fuel
        ⟨s.chunks.set i ({ f with ptr := f.data, next := none }),
          s.current_chunk_footer, i, s.freed⟩
        f.next := by
  conv_lhs => unfold resetLoop
  simp only [hf]
  rw [if_pos hi]

/-- Reset loop step at a non-current chunk. -/
theorem resetLoop_step_other {fuel : Nat} {s : Bump} {i : Nat} {f : ChunkFooter}
    (hf : s.chunks[i]? = some f) (hi : ¬i = s.current_chunk_footer) :
    resetLoop (fuel + 1) s (some i) =
      resetLoop fuel { s with freed := s.freed ++ [⟨f.data, f.layout⟩] } f.next := by
  conv_lhs => unfold resetLoop
  simp only [hf]
  rw [if_neg hi]

/-- Behavior of the reset loop along a well-formed chain ending at the
current chunk: every non-current chunk is released with its own recorded
layout, in traversal order, and the current chunk is rewound, unlinked and
made the sole list head. -/
theorem resetLoop_spec {chunks : List ChunkFooter} {i : Nat} {L : List Nat}
    (hl : Links chunks i L) :
    ∀ (s : Bump) (F : List Nat) (curf : ChunkFooter) (fuel : Nat),
      s.chunks = chunks → L = F ++ [s.current_chunk_footer] →
      chunks[s.current_chunk_footer]? = some curf → L.length ≤ fuel →
      resetLoop fuel s (some i) =
        ⟨chunks.set s.current_chunk_footer { curf with ptr := curf.data, next := none },
          s.current_chunk_footer, s.current_chunk_footer,
          s.freed ++ F.map (chunkEvent chunks)⟩ := by
  induction hl with
  | last i f hf hn =>
    intro s F curf fuel hchunks hF hcurf hfuel
    obtain ⟨sc, scur, sall, sfr⟩ := s
    dsimp only at hchunks hF hcurf ⊢
    subst hchunks
    cases F with
    | cons x xs =>
      have hlen := congrArg List.length hF
      simp only [List.length_singleton, List.length_append, List.length_cons] at hlen
      omega
    | nil =>
      simp only [List.nil_append] at hF
      injection hF with hic hnil
      subst hic
      cases fuel with
      | zero => simp at hfuel
      | succ fu =>
        have hcf : f = curf := by rw [hf] at hcurf; exact Option.some.inj hcurf
        subst hcf
        rw [resetLoop_step_cur hf rfl, hn, resetLoop_none]
        simp
  | cons i f j L hf hn hij hL ih =>
    intro s F curf fuel hchunks hF hcurf hfuel
    obtain ⟨sc, scur, sall, sfr⟩ := s
    dsimp only at hchunks hF hcurf ⊢
    subst hchunks
    cases F with
    | nil =>
      simp only [List.nil_append] at hF
      injection hF with hic hnil
      exact absurd hnil hL.ne_nil
    | cons x F' =>
      injection hF with h1 h2
      subst h1
      have hicur : i ≠ scur := by
        have hcm : scur ∈ L :=
          h2 ▸ List.mem_append_right F' (List.mem_singleton.mpr rfl)
        have hj := hL.start_le_mem scur hcm
        omega
      cases fuel with
      | zero => simp at hfuel
      | succ fu =>
        rw [resetLoop_step_other hf hicur, hn]
        have hfu : L.length ≤ fu := by
          simp only [List.length_cons] at hfuel; omega
        dsimp only
        have hrec := ih ⟨sc, scur, sall, sfr ++ [⟨f.data, f.layout⟩]⟩ F' curf fu rfl
          h2 hcurf hfu
        rw [hrec]
        have hce : chunkEvent sc i = ⟨f.data, f.layout⟩ := by
          unfold chunkEvent
          rw [hf]
        simp [hce]

/-- Characterization of `Bump::reset` on any state satisfying the list
invariant. -/
theorem reset_spec {s : Bump} (hs : Inv s) :
    ∃ F curf, s.chunks[s.current_chunk_footer]? = some curf ∧
      Links s.chunks s.all_chunk_footers (F ++ [s.current_chunk_footer]) ∧
      s.reset =
        ⟨s.chunks.set s.current_chunk_footer
            { curf with ptr := curf.data, next := none },
          s.current_chunk_footer, s.current_chunk_footer,
          s.freed ++ F.map (chunkEvent s.chunks)⟩ := by
  obtain ⟨L, hL, hlast⟩ := hs
  obtain ⟨F, hF⟩ := List.getLast?_eq_some_iff.mp hlast
  obtain ⟨curf, hcurf, -⟩ := hL.getLast_terminal hlast
  refine ⟨F, curf, hcurf, hF ▸ hL, ?_⟩
  unfold Bump.reset
  refine resetLoop_spec hL s F curf s.chunks.length rfl hF hcurf ?_
  have := hL.length_add_start_le
  omega

/-- Reset preserves the list invariant. -/
theorem inv_reset {s : Bump} (hs : Inv s) : Inv s.reset := by
  obtain ⟨F, curf, hcurf, hFL, hr⟩ := reset_spec hs
  rw [hr]
  exact ⟨[s.current_chunk_footer],
    Links.last _ { curf with ptr := curf.data, next := none }
      (List.getElem?_set_self (List.getElem?_eq_some_iff.mp hcurf).1) rfl,
    rfl⟩

/-- Every reachable arena state satisfies the list invariant. -/
theorem reachable_inv {s : Bump} (h : Reachable s) : Inv s := by
  induction h with
  | new a s h => exact inv_new h
  | alloc s layout a p s' hr h ih => exact inv_alloc ih h
  | reset s hr ih => exact inv_reset ih

/-- Iteration over an exhausted cursor yields nothing. -/
theorem eachLoop_none (fuel : Nat) (chunks : List ChunkFooter) :
    eachLoop fuel chunks none = [] := by
  cases fuel <;> rfl

/-- The iteration loop yields exactly one `(start, len)` range per chain
node, in chain order. -/
theorem eachLoop_spec {chunks : List ChunkFooter} {i : Nat} {L : List Nat}
    (hl : Links chunks i L) :
    ∀ fuel, L.length ≤ fuel →
      eachLoop fuel chunks (some i) = L.map (chunkRange chunks) := by
  induction hl with
  | last i f hf hn =>
    intro fuel hfuel
    cases fuel with
    | zero => simp at hfuel
    | succ fu =>
      unfold eachLoop
      simp only [hf]
      rw [hn, eachLoop_none]
      simp [chunkRange, hf]
  | cons i f j L hf hn hij hL ih =>
    intro fuel hfuel
    cases fuel with
    | zero => simp at hfuel
    | succ fu =>
      unfold eachLoop
      simp only [hf]
      rw [hn, ih fu (by simp only [List.length_cons] at hfuel; omega)]
      simp [chunkRange, hf]

/-- Wrapped values are machine words. -/
theorem wrap_lt (n : Nat) : wrap n < usizeBound := by
  unfold wrap
  exact Nat.mod_lt _ (by norm_num [usizeBound])

/-- Wrapping is the identity below the word bound. -/
theorem wrap_eq_of_lt {n : Nat} (h : n < usizeBound) : wrap n = n :=
  Nat.mod_eq_of_lt h

/-- The source's mask trick: for a power-of-two divisor `2 ^ k` fitting the
word, `x & !(2 ^ k - 1)` clears the low `k` bits of a word-sized `x`. -/
theorem land_mask {x k : Nat} (hx : x < usizeBound) (hk : k ≤ 64) :
    x &&& (usizeBound - 2 ^ k) = 2 ^ k * (x / 2 ^ k) := by
  have hmask : usizeBound - 2 ^ k = 2 ^ k * (2 ^ (64 - k) - 1) := by
    rw [Nat.mul_sub, Nat.mul_one, ← pow_add]
    unfold usizeBound
    congr 2
    omega
  apply Nat.eq_of_testBit_eq
  intro idx
  rw [Nat.testBit_land, hmask, Nat.testBit_mul_pow_two, Nat.testBit_mul_pow_two,
    Nat.testBit_two_pow_sub_one, ← Nat.shiftRight_eq_div_pow, Nat.testBit_shiftRight]
  by_cases hik : k ≤ idx
  · simp only [ge_iff_le, hik, decide_True, Bool.true_and]
    rw [Nat.add_sub_cancel' hik]
    by_cases hidx : idx < 64
    · have hlt : idx - k < 64 - k := by omega
      simp [hlt]
    · have hfb : x.testBit idx = false :=
        Nat.testBit_eq_false_of_lt
          (lt_of_lt_of_le hx (Nat.pow_le_pow_right (by norm_num) (by omega)))
      simp [hfb]
  · simp [hik]

/-- The computed bump address is always a multiple of a power-of-two
divisor: the source's mask form rounds up to a multiple of `divisor`. -/
theorem round_up_to_dvd (n : Nat) {d : Nat} (hd : ∃ k, d = 2 ^ k) :
    d ∣ round_up_to n d := by
  obtain ⟨k, rfl⟩ := hd
  unfold round_up_to
  by_cases hk : k ≤ 64
  · rw [land_mask (wrap_lt _) hk]
    exact Dvd.intro _ rfl
  · have h0 : usizeBound - 2 ^ k = 0 := by
      have : usizeBound ≤ 2 ^ k := by
        unfold usizeBound
        exact Nat.pow_le_pow_right (by norm_num) (by omega)
      omega
    rw [h0, Nat.and_zero]
    exact dvd_zero _

/-- When the rounding addition does not overflow the word, `round_up_to`
computes the ideal rounded value `d * ceil(n / d)`. -/
theorem round_up_to_eq {n d : Nat} (hd : ∃ k, k ≤ 64 ∧ d = 2 ^ k)
    (hnw : n + d - 1 < usizeBound) :
    round_up_to n d = d * ((n + d - 1) / d) := by
  obtain ⟨k, hk, rfl⟩ := hd
  unfold round_up_to
  rw [wrap_eq_of_lt hnw]
  exact land_mask hnw hk

/-- Bounds for the ideal rounded value: it is at least `n` and less than
`n + d`. -/
theorem round_up_to_bounds {n d : Nat} (hd : ∃ k, k ≤ 64 ∧ d = 2 ^ k)
    (hnw : n + d - 1 < usizeBound) :
    n ≤ round_up_to n d ∧ round_up_to n d < n + d := by
  have hdpos : 0 < d := by
    obtain ⟨k, -, rfl⟩ := hd
    exact Nat.two_pow_pos k
  rw [round_up_to_eq hd hnw]
  have hmd := Nat.mod_add_div (n + d - 1) d
  have hmod := Nat.mod_lt (n + d - 1) hdpos
  generalize hq : d * ((n + d - 1) / d) = X at hmd ⊢
  generalize hr : (n + d - 1) % d = r at hmd hmod
  omega

/-- Fresh arena whose default 496-byte chunk was placed at address 4096 by
the provider. -/
def bumpA : Bump := ⟨[⟨4096, ⟨496, 8⟩, none, 4096⟩], 0, 0, []⟩

/-- `bumpA` after a fast-path allocation of layout `(8, 8)`. -/
def bumpA1 : Bump := ⟨[⟨4096, ⟨496, 8⟩, none, 4104⟩], 0, 0, []⟩

/-- `bumpA` after the slow-path allocation of layout `(960, 1)` with the new
992-byte growth chunk placed at address 8192 by the provider. -/
def bumpB : Bump :=
  ⟨[⟨4096, ⟨496, 8⟩, some 1, 4096⟩, ⟨8192, ⟨992, 8⟩, none, 9152⟩], 1, 0, []⟩

/-- Fresh arena whose default chunk was placed at the very top of the
address space by the provider. -/
def bumpHigh : Bump :=
  ⟨[⟨usizeBound - 496, ⟨496, 8⟩, none, usizeBound - 496⟩], 0, 0, []⟩

/-- `bumpHigh` after the silently wrapping allocation of layout
`(1, 2 ^ 63)`. -/
def bumpHighWrapped : Bump :=
  ⟨[⟨usizeBound - 496, ⟨496, 8⟩, none, 1⟩], 0, 0, []⟩

example : Bump.new 4096 = some bumpA := by decide

example : bumpA.alloc_layout ⟨960, 1⟩ 8192 = some (8192, bumpB) := by decide

/-- Claim C1 (code bug): the claim states that every release call passes
the exact layout originally used to request the region. `Bump::reset` does
so, but `impl Drop for Bump` releases every chunk with
`Bump::default_chunk_layout()`. Evaluated here: after growing to two
chunks, the second chunk was requested with layout `(992, 8)` but the drop
releases it with the default layout `(496, 8)`, contradicting the claim
(each region is nevertheless released exactly once). -/
theorem claim_C1 :
    Bump.new 4096 = some bumpA ∧
    bumpA.alloc_layout ⟨960, 1⟩ 8192 = some (8192, bumpB) ∧
    bumpB.chunks[1]?.map ChunkFooter.layout = some ⟨992, 8⟩ ∧
    bumpB.dropDeallocs = [⟨4096, ⟨496, 8⟩⟩, ⟨8192, ⟨496, 8⟩⟩] ∧
    ((⟨496, 8⟩ : Layout) ≠ ⟨992, 8⟩) := by decide

/-- Claim C2 (code bug): the claim states that every returned region lies
inside `[data, footer_address)` and in particular that a slow-path region
never overlaps the new chunk's footer. Evaluated here: growing from the
default 496-byte chunk with a request of layout `(960, 1)` creates a
992-byte chunk whose footer sits at `data + 952`, yet the returned region
is `[data, data + 960)` and the committed bump finger `data + 960` lies
past the footer address — the allocation overlaps the footer and the
source's own `debug_assert!(ptr <= footer)` fails. -/
theorem claim_C2 :
    Bump.new 4096 = some bumpA ∧
    bumpA.alloc_layout ⟨960, 1⟩ 8192 = some (8192, bumpB) ∧
    bumpB.chunks[1]? = some ⟨8192, ⟨992, 8⟩, none, 9152⟩ ∧
    ChunkFooter.footerAddr ⟨8192, ⟨992, 8⟩, none, 9152⟩ = 9144 ∧
    ¬(8192 + 960 ≤ 9144) ∧ (9144 : Nat) < 9152 := by decide

/-- Claim C3 (amended): restricted to requests where rounding the bump
finger up to the requested power-of-two alignment does not itself overflow
the word, the rounding computes the ideal rounded address; if adding the
requested size to it would exceed the addressable range then `alloc_layout`
signals the fatal overflow condition (models the `self.overflow()` panic as
`none`) rather than wrapping; and on any attempt the fast path cannot
satisfy, the current chunk's bump finger is left unchanged. -/
theorem claim_C3 (s : Bump) (cur : ChunkFooter) (layout : Layout) (a : Nat)
    (hcur : s.chunks[s.current_chunk_footer]? = some cur)
    (hpow : ∃ k, k ≤ 64 ∧ layout.align = 2 ^ k)
    (hnw : cur.ptr + layout.align - 1 < usizeBound) :
    round_up_to cur.ptr layout.align =
      layout.align * ((cur.ptr + layout.align - 1) / layout.align) ∧
    (usizeBound ≤ round_up_to cur.ptr layout.align + layout.size →
      s.alloc_layout layout a = none) ∧
    (∀ p s', cur.footerAddr < round_up_to cur.ptr layout.align + layout.size →
      s.alloc_layout layout a = some (p, s') →
      ∃ f, s'.chunks[s.current_chunk_footer]? = some f ∧ f.ptr = cur.ptr) := by
  obtain ⟨k, hk, hak⟩ := hpow
  refine ⟨round_up_to_eq ⟨k, hk, hak⟩ hnw, ?_, ?_⟩
  · intro hov
    unfold Bump.alloc_layout
    rw [hcur]
    dsimp only
    have hadd : checked_add (round_up_to cur.ptr layout.align) layout.size = none := by
      unfold checked_add
      rw [if_neg (by omega)]
    rw [hadd]
  · intro p s' hgt hsome
    rcases alloc_layout_cases hcur hsome with ⟨-, hle, -, -⟩ | ⟨-, -, hslow⟩
    · omega
    · obtain ⟨f, hnc, hp, hs'⟩ := alloc_layout_slow_spec hcur hslow
      subst hs'
      have hcl : s.current_chunk_footer < s.chunks.length :=
        (List.getElem?_eq_some_iff.mp hcur).1
      refine ⟨{ cur with next := some s.chunks.length }, ?_, rfl⟩
      rw [List.getElem?_append_left (by simpa using hcl)]
      exact List.getElem?_set_self hcl

/-- Witness for the amended claim C3 at a concrete state: a fresh arena at
address 4096 with an alignment-1 request of size `2 ^ 64 - 1`. -/
theorem claim_C3_witness :
    round_up_to 4096 (1 : Nat) = 1 * ((4096 + 1 - 1) / 1) ∧
    (usizeBound ≤ round_up_to 4096 1 + (usizeBound - 1) →
      bumpA.alloc_layout ⟨usizeBound - 1, 1⟩ 0 = none) ∧
    (∀ p s', ChunkFooter.footerAddr ⟨4096, ⟨496, 8⟩, none, 4096⟩ <
        round_up_to 4096 1 + (usizeBound - 1) →
      bumpA.alloc_layout ⟨usizeBound - 1, 1⟩ 0 = some (p, s') →
      ∃ f, s'.chunks[bumpA.current_chunk_footer]? = some f ∧ f.ptr = 4096) :=
  claim_C3 bumpA ⟨4096, ⟨496, 8⟩, none, 4096⟩ ⟨usizeBound - 1, 1⟩ 0 (by decide)
    ⟨0, by omega, by decide⟩ (by decide)

/-- Claim C3 counterexample to the original statement: with the default
chunk placed at the top of the address space and a request of alignment
`2 ^ 63`, the ideal rounded bump address is `2 ^ 64`, exceeding the
addressable range, yet `alloc_layout` does not signal the fatal condition:
release-mode rounding silently wraps, the call returns address 0, and the
bump finger is corrupted from `2 ^ 64 - 496` down to 1. -/
theorem claim_C3_counterexample :
    Bump.new (usizeBound - 496) = some bumpHigh ∧
    usizeBound ≤ 2 ^ 63 * ((usizeBound - 496 + 2 ^ 63 - 1) / 2 ^ 63) ∧
    bumpHigh.alloc_layout ⟨1, 2 ^ 63⟩ 0 = some (0, bumpHighWrapped) ∧
    bumpHighWrapped.chunks[0]?.map ChunkFooter.ptr = some 1 ∧
    ¬(usizeBound - 496 ≤ 1) := by decide

example :
    Bump.alloc_layout ⟨[⟨4096, ⟨496, 8⟩, none, 4096⟩], 0, 0, []⟩ ⟨960, 1⟩ 8192 =
      some (8192,
        ⟨[⟨4096, ⟨496, 8⟩, some 1, 4096⟩, ⟨8192, ⟨992, 8⟩, none, 9152⟩], 1, 0, []⟩) := by
  decide

example :
    Bump.alloc_layout ⟨[⟨4096, ⟨496, 8⟩, none, 4096⟩], 0, 0, []⟩ ⟨8, 8⟩ 0 =
      some (4096, ⟨[⟨4096, ⟨496, 8⟩, none, 4104⟩], 0, 0, []⟩) := by decide

example :
    Bump.alloc_layout
      ⟨[⟨usizeBound - 496, ⟨496, 8⟩, none, usizeBound - 496⟩], 0, 0, []⟩
      ⟨1, 2 ^ 63⟩ 0 =
      some (0, ⟨[⟨usizeBound - 496, ⟨496, 8⟩, none, 1⟩], 0, 0, []⟩) := by decide

/-- Outcome asserted by claim C4 for an allocation that the fast path
cannot satisfy: doubling overflow is fatal, and otherwise exactly one new
chunk is created with the derived `(size, align)` layout, spliced after the
current chunk, made current, and the allocation is served from its start. -/
def growthOutcome (s : Bump) (cur : ChunkFooter) (layout : Layout) (a : Nat) : Prop :=
  (usizeBound ≤ cur.layout.size * 2 → s.alloc_layout layout a = none) ∧
  (∀ p s', s.alloc_layout layout a = some (p, s') →
    s'.chunks.length = s.chunks.length + 1 ∧
    s'.current_chunk_footer = s.chunks.length ∧
    s'.all_chunk_footers = s.all_chunk_footers ∧
    s'.freed = s.freed ∧
    s'.chunks[s.current_chunk_footer]? =
      some ({ cur with next := some s.chunks.length }) ∧
    (∀ i, i < s.chunks.length → i ≠ s.current_chunk_footer →
      s'.chunks[i]? = s.chunks[i]?) ∧
    (∃ f, s'.chunks[s.chunks.length]? = some f ∧
      f.layout = ⟨max (cur.layout.size * 2) (round_up_to layout.size FOOTER_ALIGN),
        max cur.layout.align layout.align⟩ ∧
      f.data = a ∧ p = a ∧ f.ptr = wrap (a + layout.size)))

/-- Claim C4: when the fast path determines the current chunk has
insufficient room, exactly one new chunk is created, its size is
`max(previous_size * 2, request rounded up to the footer alignment)`, its
alignment is `max(previous_align, requested_align)`, overflow of the
doubling is fatal, and the allocation is satisfied from the new chunk's
start. -/
theorem claim_C4 (s : Bump) (cur : ChunkFooter) (layout : Layout) (a : Nat)
    (hcur : s.chunks[s.current_chunk_footer]? = some cur)
    (hfail : cur.footerAddr < round_up_to cur.ptr layout.align + layout.size) :
    growthOutcome s cur layout a := by
  constructor
  · intro hov2
    unfold Bump.alloc_layout
    rw [hcur]
    dsimp only
    by_cases hov : round_up_to cur.ptr layout.align + layout.size < usizeBound
    · have hadd : checked_add (round_up_to cur.ptr layout.align) layout.size =
          some (round_up_to cur.ptr layout.align + layout.size) := by
        unfold checked_add
        rw [if_pos hov]
      rw [hadd]
      dsimp only
      rw [if_neg (by omega)]
      unfold Bump.alloc_layout_slow
      rw [hcur]
      dsimp only
      rw [new_chunk_growth_overflow hov2]
    · have hadd : checked_add (round_up_to cur.ptr layout.align) layout.size =
          none := by
        unfold checked_add
        rw [if_neg hov]
      rw [hadd]
  · intro p s' hsome
    rcases alloc_layout_cases hcur hsome with ⟨-, hle, -, -⟩ | ⟨-, -, hslow⟩
    · omega
    · obtain ⟨f, hnc, hp, hs'⟩ := alloc_layout_slow_spec hcur hslow
      subst hs'
      have hcl : s.current_chunk_footer < s.chunks.length :=
        (List.getElem?_eq_some_iff.mp hcur).1
      obtain ⟨hnext, hdata, hptr, hnz⟩ := new_chunk_spec hnc
      refine ⟨by simp, rfl, rfl, rfl, ?_, ?_, ?_⟩
      · rw [List.getElem?_append_left (by simpa using hcl)]
        exact List.getElem?_set_self hcl
      · intro i hi hne
        rw [List.getElem?_append_left (by simpa using hi)]
        exact List.getElem?_set_ne (fun he => hne he.symm)
      · refine ⟨{ f with ptr := wrap (f.ptr + layout.size) }, ?_, ?_, hdata,
          hp.trans hdata, by rw [hptr]⟩
        · have hcat := List.getElem?_concat_length
            (s.chunks.set s.current_chunk_footer
              ({ cur with next := some s.chunks.length }))
            ({ f with ptr := wrap (f.ptr + layout.size) })
          rw [List.length_set] at hcat
          exact hcat
        · exact (new_chunk_growth_layout hnc).1

/-- Witness for claim C4: the concrete growth scenario of a fresh default
chunk at 4096 receiving a request of layout `(960, 1)`, with the provider
placing the growth chunk at 8192. -/
theorem claim_C4_witness :
    growthOutcome bumpA ⟨4096, ⟨496, 8⟩, none, 4096⟩ ⟨960, 1⟩ 8192 :=
  claim_C4 bumpA ⟨4096, ⟨496, 8⟩, none, 4096⟩ ⟨960, 1⟩ 8192 (by decide) (by decide)

/-- Claim C5: for every allocation request whose alignment is a power of
two, the address returned by `alloc_layout` — on the fast path (rounded
bump finger) and on the slow path (the fresh chunk's provider-aligned
start) — is a multiple of that alignment. -/
theorem claim_C5 (s : Bump) (layout : Layout) (a p : Nat) (s' : Bump)
    (hpow : ∃ k, layout.align = 2 ^ k) (ha : layout.align ∣ a)
    (h : s.alloc_layout layout a = some (p, s')) :
    p % layout.align = 0 := by
  obtain ⟨cur, hcur⟩ := alloc_layout_current_exists h
  rcases alloc_layout_cases hcur h with ⟨-, -, hp, -⟩ | ⟨-, -, hslow⟩
  · subst hp
    exact Nat.mod_eq_zero_of_dvd (round_up_to_dvd cur.ptr hpow)
  · obtain ⟨f, hnc, hp, -⟩ := alloc_layout_slow_spec hcur hslow
    subst hp
    rw [(new_chunk_spec hnc).2.1]
    exact Nat.mod_eq_zero_of_dvd ha

/-- Witness for claim C5: a fast-path allocation of layout `(8, 8)` in the
fresh arena returns address 4096, a multiple of 8. -/
theorem claim_C5_witness : (4096 : Nat) % (Layout.mk 8 8).align = 0 :=
  claim_C5 bumpA ⟨8, 8⟩ 16 4096 bumpA1 ⟨3, by decide⟩ (by decide) (by decide)

/-- Outcome asserted by claim C6 for `reset`: the chunk that was current
stays current, becomes the head and the sole attached chunk, its bump
finger is rewound to its data start and its link cleared, and every other
previously attached chunk is released with its own recorded layout. -/
def resetOutcome (s : Bump) : Prop :=
  s.reset.current_chunk_footer = s.current_chunk_footer ∧
  s.reset.all_chunk_footers = s.current_chunk_footer ∧
  (∃ curf, s.chunks[s.current_chunk_footer]? = some curf ∧
    s.reset.chunks[s.current_chunk_footer]? =
      some ({ curf with ptr := curf.data, next := none }) ∧
    Links s.reset.chunks s.reset.all_chunk_footers [s.current_chunk_footer]) ∧
  (∃ F, Links s.chunks s.all_chunk_footers (F ++ [s.current_chunk_footer]) ∧
    s.reset.freed = s.freed ++ F.map (chunkEvent s.chunks))

/-- Claim C6: after `reset` returns, in every reachable arena state,
exactly one chunk remains attached — the chunk that was current before the
reset — its bump finger equals its data start, its next link is cleared,
the list head equals the current chunk, and every other previously
attached chunk has been released to the system memory provider (with its
recorded layout). -/
theorem claim_C6 (s : Bump) (h : Reachable s) : resetOutcome s := by
  obtain ⟨F, curf, hcurf, hFL, hr⟩ := reset_spec (reachable_inv h)
  unfold resetOutcome
  rw [hr]
  dsimp only
  have hset : (s.chunks.set s.current_chunk_footer
      ({ curf with ptr := curf.data, next := none }))[s.current_chunk_footer]? =
      some ({ curf with ptr := curf.data, next := none }) :=
    List.getElem?_set_self (List.getElem?_eq_some_iff.mp hcurf).1
  exact ⟨rfl, rfl, ⟨curf, hcurf, hset, Links.last _ _ hset rfl⟩, ⟨F, hFL, rfl⟩⟩

/-- Witness for claim C6: the two-chunk arena `bumpB`, reached by one
growth allocation from a fresh arena. -/
theorem claim_C6_witness : resetOutcome bumpB :=
  claim_C6 bumpB
    (Reachable.alloc bumpA ⟨960, 1⟩ 8192 8192 bumpB
      (Reachable.new 4096 bumpA (by decide)) (by decide))

/-- Claim C7 (code bug): the claim states that along any allocation
sequence served from one chunk the finger satisfies
`data <= ptr <= footer_address` and every returned region lies within
`[data, footer_address)`. Evaluated here: the first allocation served from
the growth chunk of `bumpB` (request `(960, 1)`) returns the region
`[8192, 8192 + 960)` while the chunk's footer address is 9144, so the
region escapes `[data, footer_address)` and the committed finger 9152
violates `ptr <= footer_address`. -/
theorem claim_C7 :
    Bump.new 4096 = some bumpA ∧
    bumpA.alloc_layout ⟨960, 1⟩ 8192 = some (8192, bumpB) ∧
    bumpB.chunks[bumpB.current_chunk_footer]? = some ⟨8192, ⟨992, 8⟩, none, 9152⟩ ∧
    ¬((9152 : Nat) ≤ ChunkFooter.footerAddr ⟨8192, ⟨992, 8⟩, none, 9152⟩) ∧
    ¬(8192 + 960 ≤ ChunkFooter.footerAddr ⟨8192, ⟨992, 8⟩, none, 9152⟩) := by decide

/-- Outcome asserted by claim C8 for `each_allocated_chunk`: the iteration
yields exactly one `(start, len)` range per attached chunk, following the
chain from the oldest to the current chunk in strictly ascending insertion
order, each range being `[data, bump_finger)`, and the total yielded length
is the sum over chunks of the finger offsets. -/
def iterationOutcome (s : Bump) : Prop :=
  ∃ L, Links s.chunks s.all_chunk_footers L ∧
    L.getLast? = some s.current_chunk_footer ∧
    L.Pairwise (· < ·) ∧
    s.each_allocated_chunk = L.map (chunkRange s.chunks) ∧
    (∀ i ∈ L, ∀ f, s.chunks[i]? = some f → f.data ≤ f.ptr → f.ptr < usizeBound →
      chunkRange s.chunks i = (f.data, f.ptr - f.data)) ∧
    (s.each_allocated_chunk.map Prod.snd).sum =
      (L.map fun i => (chunkRange s.chunks i).snd).sum

/-- Claim C8: `each_allocated_chunk` visits every attached chunk exactly
once, in oldest-to-newest insertion order, yields for each chunk exactly
the byte range `[data, bump_finger)`, and the total yielded length equals
the number of bytes committed via the bump fingers across all chunks. -/
theorem claim_C8 (s : Bump) (h : Reachable s) : iterationOutcome s := by
  obtain ⟨L, hL, hlast⟩ := reachable_inv h
  have heach : s.each_allocated_chunk = L.map (chunkRange s.chunks) := by
    unfold Bump.each_allocated_chunk
    refine eachLoop_spec hL s.chunks.length ?_
    have := hL.length_add_start_le
    omega
  refine ⟨L, hL, hlast, hL.pairwise_lt, heach, ?_, ?_⟩
  · intro i hi f hf hdp hpb
    unfold chunkRange
    rw [hf]
    dsimp only
    have hdb : f.data < usizeBound := lt_of_le_of_lt hdp hpb
    unfold wsub
    rw [Nat.mod_eq_of_lt hdb]
    have h1 : f.ptr + (usizeBound - f.data) = usizeBound + (f.ptr - f.data) := by
      omega
    rw [h1, Nat.add_mod_left, Nat.mod_eq_of_lt (by omega)]
  · rw [heach, List.map_map]
    rfl

/-- Witness for claim C8: the two-chunk arena `bumpB`. -/
theorem claim_C8_witness : iterationOutcome bumpB :=
  claim_C8 bumpB
    (Reachable.alloc bumpA ⟨960, 1⟩ 8192 8192 bumpB
      (Reachable.new 4096 bumpA (by decide)) (by decide))

/-- Invariant asserted by claim C9: the current chunk is reachable from
the list head by following `next` links, is the terminal node of the list
(its `next` is `none`), and the chain is ordered oldest to newest by
insertion (strictly ascending allocation indices). -/
def listInvariant (s : Bump) : Prop :=
  ∃ L, Links s.chunks s.all_chunk_footers L ∧
    L.getLast? = some s.current_chunk_footer ∧
    L.Pairwise (· < ·) ∧
    (∃ f, s.chunks[s.current_chunk_footer]? = some f ∧ f.next = none)

/-- Claim C9: in every state reachable by construction, allocation (fast
or slow path) and reset, the current chunk is reachable from
`all_chunk_footers` by following `next` links, is the terminal node of the
list, and the list is ordered oldest to newest by insertion. -/
theorem claim_C9 (s : Bump) (h : Reachable s) : listInvariant s := by
  obtain ⟨L, hL, hlast⟩ := reachable_inv h
  exact ⟨L, hL, hlast, hL.pairwise_lt, hL.getLast_terminal hlast⟩

/-- Witness for claim C9: a freshly constructed arena. -/
theorem claim_C9_witness : listInvariant bumpA :=
  claim_C9 bumpA (Reachable.new 4096 bumpA (by decide))

/-- Claim C10: deallocating through the allocator trait interface is a
no-op: for every pointer and layout it leaves the entire arena state —
chunk store, current chunk, list head and the release log — unchanged, and
returns no memory to the system memory provider. -/
theorem claim_C10 (s : Bump) (p : Nat) (layout : Layout) :
    Bump.trait_dealloc s p layout = s ∧
    (Bump.trait_dealloc s p layout).chunks = s.chunks ∧
    (Bump.trait_dealloc s p layout).current_chunk_footer = s.current_chunk_footer ∧
    (Bump.trait_dealloc s p layout).all_chunk_footers = s.all_chunk_footers ∧
    (Bump.trait_dealloc s p layout).freed = s.freed :=
  ⟨rfl, rfl, rfl, rfl, rfl⟩

end Bumpalo
